import Mathlib

/-!
Verification of the Kelly-fraction pipeline (src/app.py).

Strings are modelled as `List Char`.  Numbers that the Python code holds as
floats are modelled as rationals (`ℚ`); the arithmetic in every claim under
study is exact, so no rounding behaviour is lost.  The regex operations of
`normalize` (word-boundary suffix removal, character-class stripping,
whitespace collapsing) are modelled by an explicit scanner that follows the
semantics of Python `re.sub` on the patterns appearing in the source.
-/

set_option autoImplicit false
set_option maxRecDepth 100000

namespace KellyApp

/-- The space character, shared by several definitions. -/
def sp : Char := Char.ofNat 32

/-- The full stop character used by the optional trailing period in the
suffix-token pattern. -/
def dotChar : Char := Char.ofNat 46

/-- Python `\s` / `str.strip` whitespace (ASCII part): space, tab,
newline, carriage return, vertical tab, form feed. -/
def isSpaceChar (c : Char) : Bool :=
  c.toNat = 32 || c.toNat = 9 || c.toNat = 10 || c.toNat = 13 ||
  c.toNat = 11 || c.toNat = 12

/-- Python regex word character (`\w`), restricted to ASCII inputs:
letters, digits and underscore.  Word boundaries `\b` are defined from it. -/
def isWordChar (c : Char) : Bool :=
  (65 ≤ c.toNat && c.toNat ≤ 90) || (97 ≤ c.toNat && c.toNat ≤ 122) ||
  (48 ≤ c.toNat && c.toNat ≤ 57) || c.toNat = 95

/-- Word-character test on an optional character (out of bounds = non-word). -/
def optIsWord : Option Char → Bool
  | none => false
  | some c => isWordChar c

/-- `startsWithL n h` holds when `n` is a prefix of `h`. -/
def startsWithL : List Char → List Char → Bool
  | [], _ => true
  | _ :: _, [] => false
  | a :: as, b :: bs => a = b && startsWithL as bs

/-- The corporate-suffix alternatives of the pattern
`\b(INC|CORP|COMPANY|CO|LTD|LLC|PLC)\.?\b` (line 47 of src/app.py),
in the order Python tries them. -/
def suffixTokens : List (List Char) :=
  [("INC".toList), ("CORP".toList), ("COMPANY".toList), ("CO".toList),
   ("LTD".toList), ("LLC".toList), ("PLC".toList)]

/-- Try to match one alternative `w` followed by `\.?\b` at the head of
`rest`.  Returns the matched length.  The greedy optional dot is kept when
the boundary after it succeeds, otherwise the engine backtracks to the
dot-less variant (whose boundary always holds because tokens end in a
letter and `.` is a non-word character). -/
def matchTokenAt (rest w : List Char) : Option Nat :=
  if startsWithL w rest then
    match rest.drop w.length with
    | [] => some w.length
    | c :: rest3 =>
      if c = dotChar then
        if optIsWord rest3.head? then some (w.length + 1) else some w.length
      else if isWordChar c then none else some w.length
  else none

/-- First alternative that matches, in pattern order. -/
def findTok : List (List Char) → List Char → Option Nat
  | [], _ => none
  | w :: ws, rest =>
    match matchTokenAt rest w with
    | some n => some n
    | none => findTok ws rest

/-- Attempt the whole pattern at the current position.  The leading `\b`
requires the previous character to be a non-word character (every
alternative begins with a letter, which is a word character). -/
def matchAt (prev : Option Char) (rest : List Char) : Option Nat :=
  if optIsWord prev then none else findTok suffixTokens rest

/-- Worker for the substitution scan.  The first argument counts characters
of a current match still to delete; deleting a character records it as the
previous character, so that when scanning resumes after a match the `\b`
context is the last character of the matched text, exactly as in Python
(replacement text does not take part in matching). -/
def removeAux : Nat → Option Char → List Char → List Char
  | _, _, [] => []
  | k + 1, _, c :: rest => removeAux k (some c) rest
  | 0, prev, c :: rest =>
    match matchAt prev (c :: rest) with
    | some n => removeAux (n - 1) (some c) rest
    | none => c :: removeAux 0 (some c) rest

/-- Left-to-right, non-overlapping `re.sub(pattern, this, text)` deleting
each match, as Python performs it. -/
def removeSub (prev : Option Char) (s : List Char) : List Char :=
  removeAux 0 prev s

/-- `txt.upper()` (ASCII-faithful). -/
def upperStr (s : List Char) : List Char := s.map Char.toUpper

/-- Characters kept by `re.sub(r'[^A-Z0-9 ]', this, t)`: uppercase
letters, digits, space. -/
def keepChar (c : Char) : Bool :=
  (65 ≤ c.toNat && c.toNat ≤ 90) || (48 ≤ c.toNat && c.toNat ≤ 57) || c.toNat = 32

/-- Deletion of every character outside `[A-Z0-9 ]`. -/
def stripOther (s : List Char) : List Char := s.filter keepChar

/-- Worker for whitespace collapsing: the flag records whether the scan is
inside a whitespace run whose single replacement space was already
emitted. -/
def collapseAux : Bool → List Char → List Char
  | _, [] => []
  | inRun, c :: rest =>
    if isSpaceChar c then
      if inRun then collapseAux true rest else sp :: collapseAux true rest
    else c :: collapseAux false rest

/-- `re.sub(r'\s+', single-space, t)`: each maximal whitespace run becomes
one space. -/
def collapseWS (s : List Char) : List Char := collapseAux false s

/-- Drop trailing characters satisfying `p`. -/
def dropEndWhile (p : Char → Bool) (s : List Char) : List Char :=
  (s.reverse.dropWhile p).reverse

/-- Python `str.strip()`. -/
def pyStrip (s : List Char) : List Char :=
  dropEndWhile isSpaceChar (s.dropWhile isSpaceChar)

/-- The `normalize` function of src/app.py lines 45-49: uppercase, delete
whole-word corporate suffixes, delete characters outside `[A-Z0-9 ]`,
collapse whitespace runs, trim. -/
def normalize (s : List Char) : List Char :=
  pyStrip (collapseWS (stripOther (removeSub none (upperStr s))))

example : normalize (("ACME CO").toList) = ("ACME").toList := by decide
example : normalize (("COBALT MINING").toList) = ("COBALT MINING").toList := by decide
example : normalize (("I.N.C").toList) = ("INC").toList := by decide
example : normalize (("INC").toList) = [] := by decide
example : normalize (("APPLE INC COMMON STOCK").toList) = ("APPLE COMMON STOCK").toList := by decide
example : normalize (("Apple Inc.").toList) = ("APPLE").toList := by decide
example : normalize (("RANDOM UNMATCHABLE CO").toList) = ("RANDOM UNMATCHABLE").toList := by decide

/-! ### The fuzzy scorer

`src/app.py` scores candidates with `fuzz.token_set_ratio` of the rapidfuzz
library.  The library is external to the repository; it is modelled here by
its documented algorithm: split both strings into their sorted sets of
whitespace-separated tokens; if either set is empty the score is 0; if the
sets overlap and one is a subset of the other the score is 100; otherwise
the score is the maximum of the normalized indel similarities between the
joined intersection and each of the joined set differences prefixed by the
intersection.  Scores are rationals in `[0, 100]` (the library returns
floats of the same values). -/

/-- Worker for `str.split()`: accumulate the current word (reversed). -/
def splitAux : List Char → List Char → List (List Char)
  | acc, [] => if acc = [] then [] else [acc.reverse]
  | acc, c :: rest =>
    if isSpaceChar c then
      if acc = [] then splitAux [] rest else acc.reverse :: splitAux [] rest
    else splitAux (c :: acc) rest

/-- Python `s.split()`: maximal runs of non-whitespace characters. -/
def wordsOf (s : List Char) : List (List Char) := splitAux [] s

/-- Lexicographic comparison of strings by code point, as Python compares
strings when sorting. -/
def strLt : List Char → List Char → Bool
  | [], [] => false
  | [], _ :: _ => true
  | _ :: _, [] => false
  | a :: as, b :: bs => if a < b then true else if b < a then false else strLt as bs

/-- Insertion into a sorted list of strings. -/
def insertStr (x : List Char) : List (List Char) → List (List Char)
  | [] => [x]
  | y :: ys => if strLt x y then x :: y :: ys else y :: insertStr x ys

/-- Insertion sort of a list of strings. -/
def sortStrs : List (List Char) → List (List Char)
  | [] => []
  | x :: xs => insertStr x (sortStrs xs)

/-- Deduplication keeping first occurrences (`pandas.drop_duplicates`
order; also used to form token sets before sorting). -/
def dedupKeepFirst (l : List (List Char)) : List (List Char) :=
  l.foldl (fun acc d => if d ∈ acc then acc else acc ++ [d]) []

/-- `sorted(set(s.split()))`: the sorted token set of a string. -/
def sortedTokens (s : List Char) : List (List Char) :=
  sortStrs (dedupKeepFirst (wordsOf s))

/-- Join words with single spaces (`" ".join`). -/
def joinSp : List (List Char) → List Char
  | [] => []
  | [w] => w
  | w :: ws => w ++ sp :: joinSp ws

/-- One row update of the longest-common-subsequence table:
`up :: olds` walks the previous row, `diag` and `left` hold the values
diagonally above and to the left of the current cell. -/
def lcsRowStep (x : Char) : List Char → List Nat → Nat → Nat → List Nat
  | [], _, _, _ => []
  | _ :: _, [], _, _ => []
  | y :: bs, up :: olds, diag, left =>
    let cur := if x = y then diag + 1 else max up left
    cur :: lcsRowStep x bs olds up cur

/-- Next full row of the LCS table for character `x`. -/
def lcsRow (x : Char) (b : List Char) : List Nat → List Nat
  | [] => []
  | d :: rest => 0 :: lcsRowStep x b rest d 0

/-- Length of the longest common subsequence, by dynamic programming. -/
def lcsLen (a b : List Char) : Nat :=
  ((a.foldl (fun row x => lcsRow x b row) (List.replicate (b.length + 1) 0)).getLast?).getD 0

/-- Indel (insertion/deletion) edit distance, the metric underlying
rapidfuzz ratios: `|a| + |b| - 2·lcs(a,b)`. -/
def indelDist (a b : List Char) : Nat := a.length + b.length - 2 * lcsLen a b

/-- rapidfuzz `fuzz.token_set_ratio`, modelled over exact rationals. -/
def tokenSetScore (s1 s2 : List Char) : ℚ :=
  let ta := sortedTokens s1
  let tb := sortedTokens s2
  if ta = [] || tb = [] then 0
  else
    let sect := ta.filter (fun w => decide (w ∈ tb))
    let diffAB := ta.filter (fun w => !decide (w ∈ tb))
    let diffBA := tb.filter (fun w => !decide (w ∈ ta))
    if sect ≠ [] ∧ (diffAB = [] ∨ diffBA = []) then 100
    else
      let sectLen : ℚ := (joinSp sect).length
      let abLen : ℚ := (joinSp diffAB).length
      let baLen : ℚ := (joinSp diffBA).length
      let bonus : ℚ := if sect = [] then 0 else 1
      let sectAbLen := sectLen + bonus + abLen
      let sectBaLen := sectLen + bonus + baLen
      let dist : ℚ := indelDist (joinSp diffAB) (joinSp diffBA)
      let res := (1 - dist / (sectAbLen + sectBaLen)) * 100
      if sect = [] then res
      else
        let rA := (1 - (bonus + abLen) / (sectLen + sectAbLen)) * 100
        let rB := (1 - (bonus + baLen) / (sectLen + sectBaLen)) * 100
        max res (max rA rB)

example : tokenSetScore (("APPLE COMMON STOCK").toList) (("APPLE").toList) = 100 := by decide
example : tokenSetScore (("RANDOM UNMATCHABLE").toList) (("APPLE").toList) = 600 / 23 := by
  with_unfolding_all decide
example : tokenSetScore [] (("APPLE").toList) = 0 := by with_unfolding_all decide

/-! ### The matcher -/

/-- A reference-catalog entity: `Name` and `Ticker` columns of the fetched
table (src/app.py lines 56-58). -/
structure Entity where
  name : List Char
  ticker : List Char
deriving DecidableEq

/-- Loop of `process.extractOne`: walk the candidates keeping the best
`(entity, score)` seen so far; a later entry replaces the best only with a
strictly larger score, so earlier entries win ties. -/
def bestAux (d : List Char) : Option (Entity × ℚ) → List Entity → Option (Entity × ℚ)
  | acc, [] => acc
  | acc, e :: rest =>
    let s := tokenSetScore d (normalize e.name)
    match acc with
    | none => bestAux d (some (e, s)) rest
    | some p => if s > p.2 then bestAux d (some (e, s)) rest else bestAux d (some p) rest

/-- `process.extractOne(d, sp500NormNames, scorer=fuzz.token_set_ratio)`
(src/app.py line 63): the highest-scoring catalog entry with its score;
`none` exactly when the catalog is empty. -/
def bestCandidate (cat : List Entity) (d : List Char) : Option (Entity × ℚ) :=
  bestAux d none cat

/-- The matching loop of src/app.py lines 61-68: for every distinct key,
keep the best candidate when its score reaches the threshold. -/
def buildMapping (keys : List (List Char)) (cat : List Entity) (t : ℚ) :
    List (List Char × List Char) :=
  keys.filterMap (fun d =>
    match bestCandidate cat d with
    | none => none
    | some p => if p.2 ≥ t then some (d, p.1.ticker) else none)

/-- The catalog of the end-to-end scenario. -/
def appleCat : List Entity := [⟨("Apple Inc.").toList, ("AAPL").toList⟩]

example :
    buildMapping [("APPLE COMMON STOCK").toList, ("RANDOM UNMATCHABLE").toList] appleCat 40 =
      [(("APPLE COMMON STOCK").toList, ("AAPL").toList)] := by with_unfolding_all decide

example : buildMapping [[]] appleCat 0 = [([], ("AAPL").toList)] := by with_unfolding_all decide

/-! ### The aggregator (src/app.py lines 72-94)

Per ticker group, over the list of its `Gain_Loss` values. -/

/-- The strictly positive values of a group (`x[x>0]`). -/
def posPart (g : List ℚ) : List ℚ := g.filter (fun x => decide (0 < x))

/-- The strictly negative values of a group (`x[x<0]`). -/
def negPart (g : List ℚ) : List ℚ := g.filter (fun x => decide (x < 0))

/-- `Series.mean()`: sum over length. -/
def listMean (l : List ℚ) : ℚ := l.sum / (l.length : ℚ)

/-- `x[x>0].mean() if (x>0).any() else 0` (line 78). -/
def avg_win (g : List ℚ) : ℚ := if posPart g = [] then 0 else listMean (posPart g)

/-- `abs(x[x<0].mean()) if (x<0).any() else 0` (line 79). -/
def avg_loss (g : List ℚ) : ℚ := if negPart g = [] then 0 else |listMean (negPart g)|

/-- `("Win","sum")` where `Win = Gain_Loss > 0` (lines 72, 77). -/
def winsOf (g : List ℚ) : Nat := (posPart g).length

/-- `("Gain_Loss","count")` (line 76): the group size. -/
def totalTrades (g : List ℚ) : Nat := g.length

/-- `total_trades - wins` (line 83). -/
def lossesOf (g : List ℚ) : Nat := totalTrades g - winsOf g

/-- `wins / total_trades` (line 84). -/
def winrate (g : List ℚ) : ℚ := (winsOf g : ℚ) / (totalTrades g : ℚ)

/-- Lines 85-90: `max(winrate - (1 - winrate)*(avg_loss/avg_win), 0)` when
`avg_win > 0`, else `0`. -/
def kelly_fraction (g : List ℚ) : ℚ :=
  if 0 < avg_win g then
    max (winrate g - (1 - winrate g) * (avg_loss g / avg_win g)) 0
  else 0

/-- One row of the output table. -/
structure TickerSummary where
  ticker : List Char
  total_trades : Nat
  wins : Nat
  losses : Nat
  winrate : ℚ
  avg_win : ℚ
  avg_loss : ℚ
  kelly_fraction : ℚ
deriving DecidableEq

/-- The summary row of one ticker group. -/
def mkSummary (tk : List Char) (g : List ℚ) : TickerSummary :=
  { ticker := tk, total_trades := totalTrades g, wins := winsOf g,
    losses := lossesOf g, winrate := winrate g, avg_win := avg_win g,
    avg_loss := avg_loss g, kelly_fraction := kelly_fraction g }

/-- Lines 92-94: the mean of the Kelly fractions lying strictly between 0
and 1 (`between(0, 1, inclusive="neither")`), or 0 when none qualifies. -/
def avgKellyOf (l : List ℚ) : ℚ :=
  let valid := l.filter (fun f => decide (0 < f) && decide (f < 1))
  if valid = [] then 0 else listMean valid

/-! ### The pipeline (src/app.py lines 32-94) -/

/-- The uploaded table: headers and rows of optional cells (a missing cell
is a pandas `NaN`). -/
structure InTable where
  headers : List (List Char)
  rows : List (List (Option (List Char)))

/-- How a run aborts.  `noGainLossColumn` is the explicit
`st.error("No Gain/Loss column found"); st.stop()` of line 36.  `keyError`
models an uncaught pandas `KeyError` escaping the script: raised by
`dropna` when the `Description` column is absent (line 42) and by `merge`
when the mapping is empty, because `pd.DataFrame([])` has no `NormDesc`
column (line 71). -/
inductive PipeError where
  | noGainLossColumn : PipeError
  | keyError : List Char → PipeError
deriving DecidableEq

deriving instance DecidableEq for Except

/-- `str.lower()` (ASCII-faithful). -/
def lowerStr (s : List Char) : List Char := s.map Char.toLower

/-- Substring test (Python `in` on strings). -/
def containsSub (n : List Char) : List Char → Bool
  | [] => n.isEmpty
  | c :: t => startsWithL n (c :: t) || containsSub n t

/-- Line 34: `"gain" in c.lower() and "loss" in c.lower()`. -/
def isGainLossHeader (h : List Char) : Bool :=
  containsSub (("gain").toList) (lowerStr h) && containsSub (("loss").toList) (lowerStr h)

/-- Line 33: `df.columns.str.strip()`. -/
def trimmedHeaders (t : InTable) : List (List Char) := t.headers.map pyStrip

/-- Index of the first gain/loss column among the trimmed headers
(`gl_cols[0]`, renamed to `Gain_Loss` at line 37). -/
def glIdx (t : InTable) : Option Nat := (trimmedHeaders t).findIdx? isGainLossHeader

/-- Index of the `Description` column. -/
def descIdx (t : InTable) : Option Nat :=
  (trimmedHeaders t).findIdx? (fun h => decide (h = ("Description").toList))

/-- Line 39: `replace(r"[,\$]", "", regex=True)` — remove commas and
dollar signs. -/
def stripMoney (s : List Char) : List Char :=
  s.filter (fun c => !(c = Char.ofNat 44 || c = Char.ofNat 36))

/-- Numeric value of a digit character. -/
def digitVal (c : Char) : Nat := c.toNat - 48

/-- Value of a digit string. -/
def natOfDigits (s : List Char) : Nat := s.foldl (fun a c => 10 * a + digitVal c) 0

/-- Unsigned decimal literal: digits with an optional point, at least one
digit overall. -/
def parseUnsigned (s : List Char) : Option ℚ :=
  let ip := s.takeWhile Char.isDigit
  match s.dropWhile Char.isDigit with
  | [] => if ip = [] then none else some ((natOfDigits ip : ℚ))
  | c :: frac =>
    if c = dotChar && frac.all Char.isDigit && !(ip = [] && frac = []) then
      some ((natOfDigits ip : ℚ) + (natOfDigits frac : ℚ) / ((10 : ℚ) ^ frac.length))
    else none

/-- `pd.to_numeric(..., errors="coerce")` (line 38), modelled for signed
decimal literals; exotic float syntax (exponents, infinities, embedded
whitespace) that no claim exercises is treated as unparseable, i.e. as a
`NaN` that `dropna` removes. -/
def parseRat (s : List Char) : Option ℚ :=
  match s with
  | [] => none
  | c :: t =>
    if c = Char.ofNat 45 then (parseUnsigned t).map (fun q => -q)
    else if c = Char.ofNat 43 then parseUnsigned t
    else parseUnsigned s

/-- Cell of a row at a column index (out of range or missing = `NaN`). -/
def getCell (row : List (Option (List Char))) (i : Nat) : Option (List Char) :=
  row.getD i none

/-- Lines 38-42: parse the gain/loss column after stripping currency
punctuation, then `dropna` on `Gain_Loss` and `Description`: the surviving
rows as (description, amount) pairs. -/
def cleanRows (t : InTable) (gi di : Nat) : List (List Char × ℚ) :=
  t.rows.filterMap (fun r =>
    match getCell r di, (getCell r gi).bind (fun s => parseRat (stripMoney s)) with
    | some d, some q => some (d, q)
    | _, _ => none)

/-- First value for a key in the match mapping. -/
def lookupMap (m : List (List Char × List Char)) (k : List Char) : Option (List Char) :=
  match m.find? (fun p => decide (p.1 = k)) with
  | some p => some p.2
  | none => none

/-- `groupby("Ticker")` group keys: the distinct tickers of the joined
rows, in sorted order as pandas sorts group keys. -/
def groupTickers (joined : List (List Char × ℚ)) : List (List Char) :=
  sortStrs (dedupKeepFirst (joined.map Prod.fst))

/-- Lines 73-90: group the joined rows by ticker and compute each group's
summary row. -/
def summarize (joined : List (List Char × ℚ)) : List TickerSummary :=
  (groupTickers joined).map (fun tk =>
    mkSummary tk ((joined.filter (fun p => decide (p.1 = tk))).map Prod.snd))

/-- The whole run of src/app.py lines 32-94 for a parsed upload `t`, a
loaded catalog `cat` and a slider threshold `thr`: returns the summary
table and the portfolio average Kelly fraction, or how the run aborted. -/
def runPipeline (t : InTable) (cat : List Entity) (thr : ℚ) :
    Except PipeError (List TickerSummary × ℚ) :=
  match glIdx t with
  | none => .error .noGainLossColumn
  | some gi =>
    match descIdx t with
    | none => .error (.keyError (("Description").toList))
    | some di =>
      let clean := cleanRows t gi di
      let uniques := dedupKeepFirst (clean.map (fun p => normalize p.1))
      let mapping := buildMapping uniques cat thr
      if mapping = [] then .error (.keyError (("NormDesc").toList))
      else
        let joined := clean.filterMap (fun p =>
          (lookupMap mapping (normalize p.1)).map (fun tk => (tk, p.2)))
        let summary := summarize joined
        .ok (summary, avgKellyOf (summary.map TickerSummary.kelly_fraction))

/-- The end-to-end scenario input of the spec. -/
def c2Table : InTable :=
  { headers := [("Description").toList, ("Gain/Loss").toList],
    rows := [
      [some (("APPLE INC COMMON STOCK").toList), some (("100").toList)],
      [some (("APPLE INC COMMON STOCK").toList), some (("-40").toList)],
      [some (("RANDOM UNMATCHABLE CO").toList), some (("10").toList)]] }

example :
    runPipeline c2Table appleCat 40 =
      .ok ([{ ticker := ("AAPL").toList, total_trades := 2, wins := 1, losses := 1,
              winrate := 1/2, avg_win := 100, avg_loss := 40, kelly_fraction := 3/10 }],
            3/10) := by
  with_unfolding_all decide

/-- A table with a recognizable gain/loss column and a `Description`
column in which no row survives cleaning (the amount is unparseable). -/
def c4Table : InTable :=
  { headers := [("Description").toList, ("Gain/Loss").toList],
    rows := [[some (("ACME CO").toList), some (("abc").toList)]] }

example :
    runPipeline c4Table appleCat 40 = .error (.keyError (("NormDesc").toList)) := by
  with_unfolding_all decide

/-! ## Claims -/

/-- **C9**: normalization removes the configured corporate-suffix tokens
(INC, CORP, COMPANY, CO, LTD, LLC, PLC, each with an optional trailing
period) only when they occur as whole words: `ACME CO` becomes `ACME`,
while the `CO` inside `COBALT` is left intact. -/
theorem claimC9 :
    normalize (("ACME CO").toList) = ("ACME").toList ∧
    normalize (("COBALT MINING").toList) = ("COBALT MINING").toList ∧
    normalize (("ACME INC").toList) = ("ACME").toList ∧
    normalize (("ACME INC.").toList) = ("ACME").toList ∧
    normalize (("ACME CORP").toList) = ("ACME").toList ∧
    normalize (("ACME CORP.").toList) = ("ACME").toList ∧
    normalize (("ACME COMPANY").toList) = ("ACME").toList ∧
    normalize (("ACME COMPANY.").toList) = ("ACME").toList ∧
    normalize (("ACME CO.").toList) = ("ACME").toList ∧
    normalize (("ACME LTD").toList) = ("ACME").toList ∧
    normalize (("ACME LTD.").toList) = ("ACME").toList ∧
    normalize (("ACME LLC").toList) = ("ACME").toList ∧
    normalize (("ACME LLC.").toList) = ("ACME").toList ∧
    normalize (("ACME PLC").toList) = ("ACME").toList ∧
    normalize (("ACME PLC.").toList) = ("ACME").toList := by
  decide

/-- **C2**: the end-to-end scenario.  Both Apple rows carry the same
description, which normalizes to `APPLE COMMON STOCK` and scores 100
against the catalog entry `Apple Inc.` (whose normalized name `APPLE` is a
token subset), so they match AAPL; the unmatchable description scores
600/23 < 40 against the only catalog entry, so it is dropped, and the
pipeline output contains exactly the one AAPL summary row with
totalTrades 2, wins 1, losses 1, winRate 1/2, avgWin 100, avgLoss 40 and
kellyFraction 3/10. -/
theorem claimC2 :
    normalize (("APPLE INC COMMON STOCK").toList) = ("APPLE COMMON STOCK").toList ∧
    tokenSetScore (normalize (("APPLE INC COMMON STOCK").toList))
        (normalize (("Apple Inc.").toList)) = 100 ∧
    tokenSetScore (normalize (("RANDOM UNMATCHABLE CO").toList))
        (normalize (("Apple Inc.").toList)) < 40 ∧
    runPipeline c2Table appleCat 40 =
      .ok ([{ ticker := ("AAPL").toList, total_trades := 2, wins := 1, losses := 1,
              winrate := 1/2, avg_win := 100, avg_loss := 40, kelly_fraction := 3/10 }],
            3/10) := by
  refine ⟨by decide, ?_, ?_, ?_⟩ <;> with_unfolding_all decide

/-- **C4 (counterexample)**: a table whose gain/loss column is present but
in which no row survives cleaning does not get the handled descriptive
error of the missing-column case (`st.error`/`st.stop`, modelled as
`noGainLossColumn`); instead the run dies on an uncaught pandas `KeyError`
raised by `merge`, because the empty mapping DataFrame has no `NormDesc`
column. -/
theorem claimC4_counterexample :
    runPipeline c4Table appleCat 40 = .error (.keyError (("NormDesc").toList)) ∧
    runPipeline c4Table appleCat 40 ≠ .error .noGainLossColumn := by
  refine ⟨?_, ?_⟩ <;> with_unfolding_all decide

/-- **C4 (amended)**: when the gain/loss and `Description` columns are
found but zero rows survive the numeric/description cleaning filter, the
run aborts with no output — but through an uncaught `KeyError` from the
merge step, not through the descriptive-error treatment of a missing
gain/loss column. -/
theorem claimC4 (t : InTable) (cat : List Entity) (thr : ℚ) (gi di : Nat)
    (hg : glIdx t = some gi) (hd : descIdx t = some di)
    (hclean : cleanRows t gi di = []) :
    runPipeline t cat thr = .error (.keyError (("NormDesc").toList)) := by
  simp only [runPipeline, hg, hd, hclean]
  rfl

/-- Witness for C4 at the concrete zero-survivor table. -/
theorem claimC4_witness :
    glIdx c4Table = some 1 ∧ descIdx c4Table = some 0 ∧ cleanRows c4Table 1 0 = [] ∧
    runPipeline c4Table appleCat 77 = .error (.keyError (("NormDesc").toList)) :=
  ⟨by decide, by decide, by with_unfolding_all decide,
    claimC4 c4Table appleCat 77 1 0 (by decide) (by decide) (by with_unfolding_all decide)⟩

/-- **C3 (counterexample)**: `normalize` is not idempotent.  On `I.N.C`
the suffix pattern finds no whole word `INC` (the dots break it), but the
later punctuation stripping glues the letters into `INC`, which a second
application then removes entirely. -/
theorem claimC3_counterexample :
    normalize (normalize (("I.N.C").toList)) ≠ normalize (("I.N.C").toList) := by
  decide

/-- The score of the empty key against any candidate is 0: its token set
is empty. -/
theorem tokenSetScore_nil_left (x : List Char) : tokenSetScore [] x = 0 := rfl

/-- Walking candidates with the empty key only ever records score 0. -/
theorem bestAux_nil_score (cat : List Entity) :
    ∀ acc, (acc = none ∨ ∃ e, acc = some (e, (0:ℚ))) →
      (bestAux [] acc cat = none ∨ ∃ e, bestAux [] acc cat = some (e, (0:ℚ))) := by
  induction cat with
  | nil => intro acc h; simpa [bestAux] using h
  | cons e rest ih =>
    intro acc h
    rcases h with h | ⟨e0, h⟩
    · subst h
      simp only [bestAux, tokenSetScore_nil_left]
      exact ih (some (e, 0)) (Or.inr ⟨e, rfl⟩)
    · subst h
      simp only [bestAux, tokenSetScore_nil_left]
      rw [if_neg (lt_irrefl (0:ℚ))]
      exact ih (some (e0, 0)) (Or.inr ⟨e0, rfl⟩)

/-- `extractOne` on the empty key reports score 0 (or nothing, when the
catalog is empty). -/
theorem bestCandidate_nil_score (cat : List Entity) :
    bestCandidate cat [] = none ∨ ∃ e, bestCandidate cat [] = some (e, (0:ℚ)) :=
  bestAux_nil_score cat none (Or.inl rfl)

/-- **C6 (amended)**: for every key list, every catalog and every
threshold of at least 1 — in particular the whole range 20-100 that the
slider permits — the empty normalized key never produces a match: its
best score is 0, below the threshold.  (At threshold exactly 0, which the
spec's recognized range 0-100 includes but the UI cannot produce, the
empty key does match; see the counterexample.) -/
theorem claimC6 (keys : List (List Char)) (cat : List Entity) (t : ℚ) (ht : 1 ≤ t) :
    ∀ tk, ([], tk) ∉ buildMapping keys cat t := by
  intro tk hmem
  unfold buildMapping at hmem
  rw [List.mem_filterMap] at hmem
  obtain ⟨d, _, heq⟩ := hmem
  rcases hbc : bestCandidate cat d with _ | p
  · rw [hbc] at heq; cases heq
  · rw [hbc] at heq
    dsimp only at heq
    by_cases hge : p.2 ≥ t
    · rw [if_pos hge] at heq
      have hpair : (d, p.1.ticker) = ([], tk) := Option.some.inj heq
      have hd : d = [] := congrArg Prod.fst hpair
      subst hd
      rcases bestCandidate_nil_score cat with h0 | ⟨e, h0⟩
      · rw [h0] at hbc; cases hbc
      · rw [h0] at hbc
        have hp : p = (e, (0:ℚ)) := (Option.some.inj hbc).symm
        rw [hp] at hge
        have : (1:ℚ) ≤ 0 := le_trans ht hge
        linarith
    · rw [if_neg hge] at heq; cases heq

/-- **C6 (claim as stated is false)**: with threshold 0 — inside the
spec's recognized range 0-100 — the empty key does match a real catalog
entity, because its score 0 satisfies `score >= threshold`. -/
theorem claimC6_counterexample :
    ([], ("AAPL").toList) ∈ buildMapping [[]] appleCat 0 ∧ (0:ℚ) ≤ 0 ∧ (0:ℚ) ≤ 100 := by
  refine ⟨?_, le_refl 0, by norm_num⟩
  with_unfolding_all decide

/-- Witness for C6 at a concrete threshold the slider allows. -/
theorem claimC6_witness : ([], ("AAPL").toList) ∉ buildMapping [[]] appleCat 20 :=
  claimC6 [[]] appleCat 20 (by norm_num) (("AAPL").toList)

/-- Members of `posPart` are strictly positive. -/
theorem posPart_pos {g : List ℚ} {x : ℚ} (hx : x ∈ posPart g) : 0 < x :=
  of_decide_eq_true (List.mem_filter.mp hx).2

/-- `avg_win` is never negative: it is 0 or a mean of positive values. -/
theorem avg_win_nonneg (g : List ℚ) : 0 ≤ avg_win g := by
  unfold avg_win
  split
  · exact le_refl 0
  · unfold listMean
    exact div_nonneg (List.sum_nonneg fun x hx => le_of_lt (posPart_pos hx))
      (Nat.cast_nonneg _)

/-- **C1**: in every ticker group, `avg_win` is the mean of the strictly
positive values (0 when there are none), `avg_loss` is the absolute value
of the mean of the strictly negative values (0 when there are none), and
`kelly_fraction` is the clamped Kelly formula when `avg_win > 0` and 0
when `avg_win = 0`.  The mean facts are stated multiplicatively
(`mean * count = sum`), which shows the divisor is the nonzero group
count; together with `0 ≤ avg_win` this covers every case with no
division by zero, and over `ℚ` no NaN can arise. -/
theorem claimC1 (g : List ℚ) :
    (posPart g ≠ [] → avg_win g * ((posPart g).length : ℚ) = (posPart g).sum) ∧
    (posPart g = [] → avg_win g = 0) ∧
    (negPart g ≠ [] → avg_loss g = |(negPart g).sum / ((negPart g).length : ℚ)|) ∧
    (negPart g = [] → avg_loss g = 0) ∧
    0 ≤ avg_win g ∧
    (0 < avg_win g →
      kelly_fraction g = max (winrate g - (1 - winrate g) * (avg_loss g / avg_win g)) 0) ∧
    (avg_win g = 0 → kelly_fraction g = 0) := by
  refine ⟨?_, ?_, ?_, ?_, avg_win_nonneg g, ?_, ?_⟩
  · intro h
    unfold avg_win listMean
    rw [if_neg h]
    have hlen : ((posPart g).length : ℚ) ≠ 0 := by
      have : (posPart g).length ≠ 0 := by simpa [List.length_eq_zero] using h
      exact_mod_cast this
    exact div_mul_cancel₀ _ hlen
  · intro h; unfold avg_win; rw [if_pos h]
  · intro h; unfold avg_loss listMean; rw [if_neg h]
  · intro h; unfold avg_loss; rw [if_pos h]
  · intro h; unfold kelly_fraction; rw [if_pos h]
  · intro h; unfold kelly_fraction; rw [if_neg (by rw [h]; exact lt_irrefl 0)]

/-- Witness for C1 on a concrete group with one win and one loss. -/
theorem claimC1_witness :
    posPart [(4:ℚ), -2] ≠ [] ∧
    avg_win [(4:ℚ), -2] * ((posPart [(4:ℚ), -2]).length : ℚ) = (posPart [(4:ℚ), -2]).sum :=
  ⟨by with_unfolding_all decide, (claimC1 [(4:ℚ), -2]).1 (by with_unfolding_all decide)⟩

/-- At most as many wins as trades. -/
theorem winsOf_le (g : List ℚ) : winsOf g ≤ totalTrades g :=
  List.length_filter_le _ _

/-- The win rate never exceeds 1 (and is 0 for an empty group, where the
cast denominator is 0 and division by 0 is 0 in `ℚ`). -/
theorem winrate_le_one (g : List ℚ) : winrate g ≤ 1 := by
  unfold winrate
  rcases Nat.eq_zero_or_pos (totalTrades g) with h | h
  · rw [h]
    simp
  · rw [div_le_one (by exact_mod_cast h)]
    exact_mod_cast winsOf_le g

/-- `avg_loss` is an absolute value or 0, hence nonnegative. -/
theorem avg_loss_nonneg (g : List ℚ) : 0 ≤ avg_loss g := by
  unfold avg_loss
  split
  · exact le_refl 0
  · exact abs_nonneg _

/-- **C10**: the computed Kelly fraction of every group lies in `[0, 1]`:
the `max(..., 0)` clamps below, and in the formula branch
`winrate ≤ 1`, `avg_loss ≥ 0` and `avg_win > 0` make the subtracted term
nonnegative, so the formula value is at most `winrate ≤ 1`. -/
theorem claimC10 (g : List ℚ) : 0 ≤ kelly_fraction g ∧ kelly_fraction g ≤ 1 := by
  unfold kelly_fraction
  split
  · next h =>
    refine ⟨le_max_right _ 0, max_le ?_ zero_le_one⟩
    have h1 : winrate g ≤ 1 := winrate_le_one g
    have h2 : 0 ≤ (1 - winrate g) * (avg_loss g / avg_win g) :=
      mul_nonneg (by linarith) (div_nonneg (avg_loss_nonneg g) (le_of_lt h))
    linarith
  · exact ⟨le_refl 0, zero_le_one⟩

/-- **C5**: the portfolio average keeps exactly the fractions strictly
between 0 and 1 (first conjunct), is 0 when none qualifies, is the mean
of the qualifying fractions otherwise (stated multiplicatively over the
nonzero count), and on the spec's example `[0, 0.3, 1, 0.5]` equals
`0.4 = 2/5` — the exact 0 and exact 1 are excluded from the average while
the input list, i.e. the per-ticker output, is untouched. -/
theorem claimC5 (l : List ℚ) :
    (∀ f, f ∈ l.filter (fun f => decide (0 < f) && decide (f < 1)) ↔
        (f ∈ l ∧ 0 < f ∧ f < 1)) ∧
    (l.filter (fun f => decide (0 < f) && decide (f < 1)) = [] → avgKellyOf l = 0) ∧
    (l.filter (fun f => decide (0 < f) && decide (f < 1)) ≠ [] →
      avgKellyOf l * ((l.filter (fun f => decide (0 < f) && decide (f < 1))).length : ℚ) =
        (l.filter (fun f => decide (0 < f) && decide (f < 1))).sum) ∧
    avgKellyOf [0, 3/10, 1, 1/2] = 2/5 := by
  refine ⟨?_, ?_, ?_, ?_⟩
  · intro f
    simp [List.mem_filter, and_assoc]
  · intro h
    simp only [avgKellyOf]
    rw [if_pos h]
  · intro h
    simp only [avgKellyOf]
    rw [if_neg h]
    unfold listMean
    have hlen : ((l.filter (fun f => decide (0 < f) && decide (f < 1))).length : ℚ) ≠ 0 := by
      have : (l.filter (fun f => decide (0 < f) && decide (f < 1))).length ≠ 0 := by
        simpa [List.length_eq_zero] using h
      exact_mod_cast this
    exact div_mul_cancel₀ _ hlen
  · with_unfolding_all decide

/-- Witness for C5 on a one-element qualifying list. -/
theorem claimC5_witness :
    [(1:ℚ)/2].filter (fun f => decide (0 < f) && decide (f < 1)) ≠ [] ∧
    avgKellyOf [(1:ℚ)/2] *
        (([(1:ℚ)/2].filter (fun f => decide (0 < f) && decide (f < 1))).length : ℚ) =
      ([(1:ℚ)/2].filter (fun f => decide (0 < f) && decide (f < 1))).sum :=
  ⟨by with_unfolding_all decide,
    (claimC5 [(1:ℚ)/2]).2.2.1 (by with_unfolding_all decide)⟩

/-- **C7**: matching is antitone in the threshold: every (key, ticker)
pair accepted at the stricter threshold `t2` is accepted at any
`t1 ≤ t2`, because the best candidate and its score do not depend on the
threshold and the acceptance test `score >= threshold` is monotone. -/
theorem claimC7 (keys : List (List Char)) (cat : List Entity) (t1 t2 : ℚ) (h : t1 ≤ t2) :
    ∀ p ∈ buildMapping keys cat t2, p ∈ buildMapping keys cat t1 := by
  intro p hp
  unfold buildMapping at hp ⊢
  rw [List.mem_filterMap] at hp ⊢
  obtain ⟨d, hd, heq⟩ := hp
  refine ⟨d, hd, ?_⟩
  rcases hbc : bestCandidate cat d with _ | q
  · rw [hbc] at heq; cases heq
  · rw [hbc] at heq
    dsimp only at heq ⊢
    by_cases hge : q.2 ≥ t2
    · rw [if_pos hge] at heq
      rw [if_pos (le_trans h hge)]
      exact heq
    · rw [if_neg hge] at heq; cases heq

/-- Witness for C7: the Apple pair accepted at 90 is accepted at 50. -/
theorem claimC7_witness :
    (("APPLE COMMON STOCK").toList, ("AAPL").toList) ∈
      buildMapping [("APPLE COMMON STOCK").toList] appleCat 50 :=
  claimC7 [("APPLE COMMON STOCK").toList] appleCat 50 90 (by norm_num)
    ((("APPLE COMMON STOCK").toList, ("AAPL").toList)) (by with_unfolding_all decide)

/-- **C8**: every emitted match comes from a best candidate whose score
reaches the threshold, and a key whose best candidate scores below the
threshold yields no match at all (the model is a total function, so no
error is possible either). -/
theorem claimC8 (keys : List (List Char)) (cat : List Entity) (t : ℚ) :
    (∀ d tk, (d, tk) ∈ buildMapping keys cat t →
      ∃ e s, bestCandidate cat d = some (e, s) ∧ t ≤ s ∧ tk = e.ticker) ∧
    (∀ d e s, bestCandidate cat d = some (e, s) → s < t →
      ∀ tk, (d, tk) ∉ buildMapping keys cat t) := by
  constructor
  · intro d tk hmem
    unfold buildMapping at hmem
    rw [List.mem_filterMap] at hmem
    obtain ⟨d0, hd0, heq⟩ := hmem
    rcases hbc : bestCandidate cat d0 with _ | q
    · rw [hbc] at heq; cases heq
    · rw [hbc] at heq
      dsimp only at heq
      by_cases hge : q.2 ≥ t
      · rw [if_pos hge] at heq
        have hpair := Option.some.inj heq
        have hd : d0 = d := congrArg Prod.fst hpair
        subst hd
        exact ⟨q.1, q.2, by rw [hbc], hge, (congrArg Prod.snd hpair).symm⟩
      · rw [if_neg hge] at heq; cases heq
  · intro d e s hbc hlt tk hmem
    unfold buildMapping at hmem
    rw [List.mem_filterMap] at hmem
    obtain ⟨d0, hd0, heq⟩ := hmem
    rcases hbc0 : bestCandidate cat d0 with _ | q
    · rw [hbc0] at heq; cases heq
    · rw [hbc0] at heq
      dsimp only at heq
      by_cases hge : q.2 ≥ t
      · rw [if_pos hge] at heq
        have hpair := Option.some.inj heq
        have hd : d0 = d := congrArg Prod.fst hpair
        subst hd
        rw [hbc0] at hbc
        have hq : q = (e, s) := Option.some.inj hbc
        rw [hq] at hge
        exact absurd hge (not_le.mpr hlt)
      · rw [if_neg hge] at heq; cases heq

/-- Witness for C8: the unmatchable key's best candidate scores 600/23,
below 40, so it produces no match. -/
theorem claimC8_witness :
    (("RANDOM UNMATCHABLE").toList, ("AAPL").toList) ∉
      buildMapping [("RANDOM UNMATCHABLE").toList] appleCat 40 :=
  (claimC8 [("RANDOM UNMATCHABLE").toList] appleCat 40).2
    (("RANDOM UNMATCHABLE").toList) (⟨("Apple Inc.").toList, ("AAPL").toList⟩ : Entity)
    (600/23) (by with_unfolding_all decide) (by with_unfolding_all decide)
    (("AAPL").toList)

/-! ### Idempotence analysis of `normalize` (claim C3)

The second application of `normalize` can differ from the first only
through characters that the `[^A-Z0-9 ]` stripping deletes (they can glue
letters into a new suffix token, as in the counterexample above).  On
inputs whose uppercased form consists of kept characters only, the first
pass is shown to equal the word-level operation "drop the suffix-token
words and rejoin with single spaces", which is idempotent. -/

/-- The non-space predicate delimiting words. -/
def nsp (c : Char) : Bool := !isSpaceChar c

/-- A character kept by the `[A-Z0-9 ]` class is fixed by uppercasing, is
not a dot, and is either an alphanumeric word character or the
(non-word) space. -/
theorem keep_cases {c : Char} (h : keepChar c = true) :
    (isWordChar c = true ∧ isSpaceChar c = false ∧ ¬c = dotChar ∧ Char.toUpper c = c) ∨
    (isWordChar c = false ∧ isSpaceChar c = true ∧ ¬c = dotChar ∧ Char.toUpper c = c) := by
  simp only [keepChar, Bool.or_eq_true, Bool.and_eq_true, decide_eq_true_eq] at h
  have hdot : ¬c = dotChar := by
    intro he
    have h46 : c.toNat = 46 := by rw [he]; decide
    omega
  have hup : Char.toUpper c = c := by
    have hno : ¬(Char.toNat c ≥ 97 ∧ Char.toNat c ≤ 122) := by omega
    simp only [Char.toUpper]
    rw [if_neg hno]
  rcases h with (h | h) | h
  · refine Or.inl ⟨?_, ?_, hdot, hup⟩
    · simp only [isWordChar, Bool.or_eq_true, Bool.and_eq_true, decide_eq_true_eq]
      omega
    · simp only [isSpaceChar, Bool.or_eq_false_iff, decide_eq_false_iff_not]
      omega
  · refine Or.inl ⟨?_, ?_, hdot, hup⟩
    · simp only [isWordChar, Bool.or_eq_true, Bool.and_eq_true, decide_eq_true_eq]
      omega
    · simp only [isSpaceChar, Bool.or_eq_false_iff, decide_eq_false_iff_not]
      omega
  · refine Or.inr ⟨?_, ?_, hdot, hup⟩
    · simp only [isWordChar, Bool.or_eq_false_iff, Bool.and_eq_false_iff,
        decide_eq_false_iff_not]
      omega
    · simp only [isSpaceChar, Bool.or_eq_true, decide_eq_true_eq]
      omega

/-- Every suffix token is a nonempty word of kept word characters. -/
theorem suffixTokens_facts :
    ∀ w ∈ suffixTokens, w ≠ [] ∧ ∀ c ∈ w,
      keepChar c = true ∧ isWordChar c = true ∧ isSpaceChar c = false := by
  decide

/-- The empty string is not a suffix token. -/
theorem nil_not_suffixToken : ¬([] ∈ suffixTokens) := by decide

/-- Word-level specification of the suffix substitution on clean strings:
spaces are copied and each word is dropped exactly when it is a suffix
token. -/
def rmWords : List Char → List Char
  | [] => []
  | c :: rest =>
    if isSpaceChar c then c :: rmWords rest
    else
      (if (c :: rest.takeWhile nsp) ∈ suffixTokens then [] else c :: rest.takeWhile nsp) ++
        rmWords (rest.dropWhile nsp)
termination_by s => s.length
decreasing_by
  all_goals simp only [List.length_cons]
  all_goals first
    | exact Nat.lt_succ_of_le (Nat.le_refl _)
    | exact Nat.lt_succ_of_le (List.Sublist.length_le (List.dropWhile_sublist nsp))

/-- Prefix test characterization. -/
theorem startsWithL_iff (n : List Char) : ∀ h : List Char,
    startsWithL n h = true ↔ ∃ r, h = n ++ r := by
  induction n with
  | nil => intro h; simp [startsWithL]
  | cons a as ih =>
    intro h
    cases h with
    | nil =>
      simp [startsWithL]
    | cons b bs =>
      simp only [startsWithL, Bool.and_eq_true, decide_eq_true_eq, ih bs]
      constructor
      · rintro ⟨hab, r, rfl⟩
        exact ⟨r, by rw [hab, List.cons_append]⟩
      · rintro ⟨r, he⟩
        rw [List.cons_append] at he
        injection he with h1 h2
        exact ⟨h1.symm, r, h2⟩

/-- On a clean string, one pattern alternative `(w)(\.?)\b` matches at the
start exactly when the first word is `w` itself. -/
theorem matchTokenAt_clean {s : List Char} (hs : ∀ c ∈ s, keepChar c = true)
    {w : List Char} (hw : w ∈ suffixTokens) :
    matchTokenAt s w = if s.takeWhile nsp = w then some w.length else none := by
  obtain ⟨-, hwch⟩ := suffixTokens_facts w hw
  have hwn : ∀ a ∈ w, nsp a = true := fun a ha => by
    simp only [nsp, (hwch a ha).2.2, Bool.not_false]
  by_cases hsw : startsWithL w s = true
  · obtain ⟨r, rfl⟩ := (startsWithL_iff w s).mp hsw
    unfold matchTokenAt
    rw [if_pos hsw, List.drop_left]
    cases r with
    | nil =>
      have ht : (w ++ ([] : List Char)).takeWhile nsp = w := by
        rw [List.takeWhile_append_of_pos hwn]
        simp
      rw [ht, if_pos rfl]
    | cons c r3 =>
      have hc : keepChar c = true := hs c (by simp)
      dsimp only
      rcases keep_cases hc with ⟨hw1, hsp1, hdot1, -⟩ | ⟨hw1, hsp1, hdot1, -⟩
      · have ht : (w ++ c :: r3).takeWhile nsp ≠ w := by
          rw [List.takeWhile_append_of_pos hwn,
            List.takeWhile_cons_of_pos (by simp [nsp, hsp1])]
          intro he
          have hl := congrArg List.length he
          simp only [List.length_append, List.length_cons] at hl
          omega
        rw [if_neg ht, if_neg hdot1, if_pos hw1]
      · have ht : (w ++ c :: r3).takeWhile nsp = w := by
          rw [List.takeWhile_append_of_pos hwn,
            List.takeWhile_cons_of_neg (by simp [nsp, hsp1])]
          simp
        rw [ht, if_pos rfl, if_neg hdot1, if_neg (by simp [hw1])]
  · unfold matchTokenAt
    rw [if_neg hsw]
    rw [if_neg]
    intro he
    apply hsw
    rw [startsWithL_iff]
    exact ⟨s.dropWhile nsp, by rw [← he, List.takeWhile_append_dropWhile]⟩

/-- On a clean string, trying the alternatives in order finds a match
exactly when the first word is one of them; the matched length is the
word's length. -/
theorem findTok_clean {s : List Char} (hs : ∀ c ∈ s, keepChar c = true) :
    ∀ toks : List (List Char), (∀ w ∈ toks, w ∈ suffixTokens) →
      findTok toks s =
        if s.takeWhile nsp ∈ toks then some (s.takeWhile nsp).length else none := by
  intro toks
  induction toks with
  | nil => intro _; simp [findTok]
  | cons w ws ih =>
    intro hsub
    have hw := hsub w (List.mem_cons_self w ws)
    simp only [findTok]
    rw [matchTokenAt_clean hs hw]
    by_cases he : s.takeWhile nsp = w
    · rw [if_pos he]
      dsimp only
      rw [if_pos (by rw [he]; exact List.mem_cons_self w ws), he]
    · rw [if_neg he]
      dsimp only
      rw [ih (fun x hx => hsub x (List.mem_cons_of_mem w hx))]
      by_cases hm : s.takeWhile nsp ∈ ws
      · rw [if_pos hm, if_pos (List.mem_cons_of_mem w hm)]
      · rw [if_neg hm, if_neg (by simp [List.mem_cons, he, hm])]

/-- On a clean string with a non-word previous character, the whole
pattern matches exactly when the first word is a suffix token. -/
theorem matchAt_clean {prev : Option Char} (hp : optIsWord prev = false)
    {s : List Char} (hs : ∀ c ∈ s, keepChar c = true) :
    matchAt prev s =
      if s.takeWhile nsp ∈ suffixTokens then some (s.takeWhile nsp).length else none := by
  unfold matchAt
  rw [hp]
  simp only [Bool.false_eq_true, if_false]
  exact findTok_clean hs suffixTokens (fun w hw => hw)

/-- Step equation of the scanner at skip count 0. -/
theorem removeAux_zero_cons (prev : Option Char) (c : Char) (rest : List Char) :
    removeAux 0 prev (c :: rest) =
      match matchAt prev (c :: rest) with
      | some n => removeAux (n - 1) (some c) rest
      | none => c :: removeAux 0 (some c) rest := rfl

/-- Deleting the characters of `u` one by one leaves the scan at the
suffix with the last deleted character as the boundary context. -/
theorem removeAux_consume :
    ∀ (u : List Char) (c : Char) (s : List Char),
      removeAux u.length (some c) (u ++ s) =
        removeAux 0 (some ((c :: u).getLast (List.cons_ne_nil c u))) s := by
  intro u
  induction u with
  | nil => intro c s; rfl
  | cons d u' ih =>
    intro c s
    calc removeAux (d :: u').length (some c) ((d :: u') ++ s)
        = removeAux u'.length (some d) (u' ++ s) := rfl
      _ = removeAux 0 (some ((d :: u').getLast (List.cons_ne_nil d u'))) s := ih d s
      _ = removeAux 0 (some ((c :: d :: u').getLast (List.cons_ne_nil c (d :: u')))) s := by
          have hg : (c :: d :: u').getLast (List.cons_ne_nil c (d :: u')) =
              (d :: u').getLast (List.cons_ne_nil d u') :=
            List.getLast_cons (List.cons_ne_nil d u')
          rw [hg]

/-- The scanner on clean strings is the word-level removal `rmWords`:
part 1 from a non-word boundary context, part 2 from inside a word (the
current word's remainder is copied verbatim and scanning resumes at the
next separator). -/
theorem removeAux_clean :
    ∀ (n : Nat) (s : List Char), s.length ≤ n → (∀ c ∈ s, keepChar c = true) →
      ((∀ prev, optIsWord prev = false → removeAux 0 prev s = rmWords s) ∧
       (∀ c0, isWordChar c0 = true →
          removeAux 0 (some c0) s = s.takeWhile nsp ++ rmWords (s.dropWhile nsp))) := by
  intro n
  induction n with
  | zero =>
    intro s hlen _
    have hs0 : s = [] := List.length_eq_zero.mp (Nat.le_zero.mp hlen)
    subst hs0
    exact ⟨fun prev _ => by simp [removeAux, rmWords],
      fun c0 _ => by simp [removeAux, rmWords]⟩
  | succ n ih =>
    intro s hlen hs
    cases s with
    | nil =>
      exact ⟨fun prev _ => by simp [removeAux, rmWords],
        fun c0 _ => by simp [removeAux, rmWords]⟩
    | cons c rest =>
      have hrest : ∀ x ∈ rest, keepChar x = true := fun x hx =>
        hs x (List.mem_cons_of_mem c hx)
      have hc : keepChar c = true := hs c (List.mem_cons_self c rest)
      have hlenr : rest.length ≤ n := by
        simp only [List.length_cons] at hlen; omega
      constructor
      · intro prev hprev
        rw [removeAux_zero_cons, matchAt_clean hprev hs]
        rcases keep_cases hc with ⟨hcw, hcs, -, -⟩ | ⟨hcw, hcs, -, -⟩
        · have hnspc : nsp c = true := by simp [nsp, hcs]
          rw [List.takeWhile_cons_of_pos hnspc]
          by_cases htok : (c :: rest.takeWhile nsp) ∈ suffixTokens
          · rw [if_pos htok]
            dsimp only
            have hlen1 : (c :: rest.takeWhile nsp).length - 1 = (rest.takeWhile nsp).length := by
              simp
            rw [hlen1]
            have hsplit : rest.takeWhile nsp ++ rest.dropWhile nsp = rest :=
              List.takeWhile_append_dropWhile nsp rest
            have hcons := removeAux_consume (rest.takeWhile nsp) c (rest.dropWhile nsp)
            rw [hsplit] at hcons
            rw [hcons]
            have hlw : isWordChar ((c :: rest.takeWhile nsp).getLast
                (List.cons_ne_nil c (rest.takeWhile nsp))) = true := by
              have hmem := List.getLast_mem (List.cons_ne_nil c (rest.takeWhile nsp))
              exact ((suffixTokens_facts _ htok).2 _ hmem).2.1
            have hdw : ∀ x ∈ rest.dropWhile nsp, keepChar x = true := fun x hx =>
              hrest x ((List.dropWhile_sublist nsp).subset hx)
            have hdlen : (rest.dropWhile nsp).length ≤ n :=
              le_trans (List.Sublist.length_le (List.dropWhile_sublist nsp)) hlenr
            have h2 := (ih (rest.dropWhile nsp) hdlen hdw).2 _ hlw
            rw [h2]
            have hdh1 : (rest.dropWhile nsp).takeWhile nsp = [] := by
              cases hdd : rest.dropWhile nsp with
              | nil => simp
              | cons d t =>
                have hh := List.head?_dropWhile_not nsp rest
                rw [hdd] at hh
                simp only [List.head?_cons] at hh
                rw [List.takeWhile_cons_of_neg (by simp [hh])]
            have hdh2 : (rest.dropWhile nsp).dropWhile nsp = rest.dropWhile nsp := by
              cases hdd : rest.dropWhile nsp with
              | nil => simp
              | cons d t =>
                have hh := List.head?_dropWhile_not nsp rest
                rw [hdd] at hh
                simp only [List.head?_cons] at hh
                rw [List.dropWhile_cons_of_neg (by simp [hh])]
            rw [hdh1, hdh2, List.nil_append]
            have hR : rmWords (c :: rest) = rmWords (rest.dropWhile nsp) := by
              simp only [rmWords]
              rw [if_neg (by simp [hcs]), if_pos htok, List.nil_append]
            rw [hR]
          · rw [if_neg htok]
            dsimp only
            have h2 := (ih rest hlenr hrest).2 c hcw
            rw [h2]
            have hR : rmWords (c :: rest) =
                (c :: rest.takeWhile nsp) ++ rmWords (rest.dropWhile nsp) := by
              simp only [rmWords]
              rw [if_neg (by simp [hcs]), if_neg htok]
            rw [hR, List.cons_append]
        · have hnspc : nsp c = false := by simp [nsp, hcs]
          rw [List.takeWhile_cons_of_neg (by simp [hnspc]), if_neg nil_not_suffixToken]
          dsimp only
          have h1 := (ih rest hlenr hrest).1 (some c) (by simp [optIsWord, hcw])
          rw [h1]
          have hR : rmWords (c :: rest) = c :: rmWords rest := by
            simp only [rmWords]
            rw [if_pos hcs]
          rw [hR]
      · intro c0 hc0
        have hm : matchAt (some c0) (c :: rest) = none := by
          unfold matchAt
          rw [if_pos (show optIsWord (some c0) = true by simpa [optIsWord] using hc0)]
        rw [removeAux_zero_cons, hm]
        dsimp only
        rcases keep_cases hc with ⟨hcw, hcs, -, -⟩ | ⟨hcw, hcs, -, -⟩
        · have h2 := (ih rest hlenr hrest).2 c hcw
          rw [h2, List.takeWhile_cons_of_pos (by simp [nsp, hcs]),
            List.dropWhile_cons_of_pos (show nsp c = true by simp [nsp, hcs]),
            List.cons_append]
        · have h1 := (ih rest hlenr hrest).1 (some c) (by simp [optIsWord, hcw])
          rw [h1, List.takeWhile_cons_of_neg (by simp [nsp, hcs]),
            List.dropWhile_cons_of_neg (by simp [nsp, hcs]), List.nil_append]
          have hR : rmWords (c :: rest) = c :: rmWords rest := by
            simp only [rmWords]
            rw [if_pos hcs]
          rw [hR]

/-- Splitting consumes a block of non-space characters into the
accumulator. -/
theorem splitAux_word :
    ∀ (w : List Char), (∀ c ∈ w, isSpaceChar c = false) →
      ∀ (acc r : List Char), splitAux acc (w ++ r) = splitAux (w.reverse ++ acc) r := by
  intro w
  induction w with
  | nil => intro _ acc r; simp
  | cons a w' ih =>
    intro hw acc r
    have ha : isSpaceChar a = false := hw a (List.mem_cons_self a w')
    have hw' : ∀ c ∈ w', isSpaceChar c = false := fun c hc => hw c (List.mem_cons_of_mem a hc)
    simp only [List.cons_append, splitAux, ha, Bool.false_eq_true, if_false]
    rw [show w'.append r = w' ++ r from rfl, ih hw' (a :: acc) r]
    simp [List.append_assoc]

/-- A leading whitespace character does not affect the word list. -/
theorem wordsOf_sp_cons {c : Char} (hc : isSpaceChar c = true) (r : List Char) :
    wordsOf (c :: r) = wordsOf r := by
  simp [wordsOf, splitAux, hc]

/-- Dropping leading whitespace does not affect the word list. -/
theorem wordsOf_dropWhile (r : List Char) :
    wordsOf (r.dropWhile isSpaceChar) = wordsOf r := by
  induction r with
  | nil => rfl
  | cons d t ih =>
    by_cases hd : isSpaceChar d = true
    · rw [List.dropWhile_cons_of_pos hd, ih, wordsOf_sp_cons hd]
    · rw [List.dropWhile_cons_of_neg hd]

/-- The word list of a non-space block followed by a separator (or the
end) starts with that block. -/
theorem wordsOf_word_append (w r : List Char) (hw : w ≠ [])
    (hwc : ∀ c ∈ w, isSpaceChar c = false)
    (hr : r = [] ∨ ∃ d t, r = d :: t ∧ isSpaceChar d = true) :
    wordsOf (w ++ r) = w :: wordsOf r := by
  unfold wordsOf
  rw [splitAux_word w hwc [] r]
  rcases hr with rfl | ⟨d, t, rfl, hd⟩
  · simp [splitAux, hw]
  · simp only [splitAux, hd, eq_self_iff_true, if_true, List.append_nil,
      List.reverse_eq_nil_iff, hw, if_false, List.reverse_reverse]

/-- Splitting with a nonempty accumulator yields at least one word. -/
theorem splitAux_ne_nil : ∀ (r acc : List Char), acc ≠ [] → splitAux acc r ≠ [] := by
  intro r
  induction r with
  | nil => intro acc ha; simp [splitAux, ha]
  | cons c t ih =>
    intro acc ha
    by_cases hc : isSpaceChar c = true
    · simp only [splitAux, hc, eq_self_iff_true, if_true, ha, if_false]
      simp
    · simp only [splitAux, hc, Bool.false_eq_true, if_false]
      exact ih (c :: acc) (List.cons_ne_nil c acc)

/-- A string with a non-space head has a nonempty word list. -/
theorem wordsOf_ne_nil {e : Char} (he : isSpaceChar e = false) (t : List Char) :
    wordsOf (e :: t) ≠ [] := by
  simp only [wordsOf, splitAux, he, Bool.false_eq_true, if_false]
  exact splitAux_ne_nil t [e] (List.cons_ne_nil e [])

/-- Every word produced by splitting is nonempty, contains no whitespace,
and draws its characters from the input. -/
theorem splitAux_words :
    ∀ (r acc : List Char), (∀ c ∈ acc, isSpaceChar c = false) →
      ∀ w ∈ splitAux acc r, w ≠ [] ∧ ∀ c ∈ w, isSpaceChar c = false ∧ (c ∈ acc ∨ c ∈ r) := by
  intro r
  induction r with
  | nil =>
    intro acc hacc w hmem
    simp only [splitAux] at hmem
    by_cases ha : acc = []
    · rw [if_pos ha] at hmem; cases hmem
    · rw [if_neg ha] at hmem
      have hw : w = acc.reverse := by simpa using hmem
      subst hw
      refine ⟨by simpa using ha, fun c hc => ?_⟩
      have hca : c ∈ acc := by simpa using hc
      exact ⟨hacc c hca, Or.inl hca⟩
  | cons d t ih =>
    intro acc hacc w hmem
    by_cases hd : isSpaceChar d = true
    · simp only [splitAux, hd, eq_self_iff_true, if_true] at hmem
      by_cases ha : acc = []
      · rw [if_pos ha] at hmem
        obtain ⟨hne, hch⟩ := ih [] (by simp) w hmem
        exact ⟨hne, fun c hc => ⟨(hch c hc).1, Or.inr (by
          rcases (hch c hc).2 with h | h
          · cases h
          · exact List.mem_cons_of_mem d h)⟩⟩
      · rw [if_neg ha] at hmem
        rcases List.mem_cons.mp hmem with rfl | hmem2
        · refine ⟨by simpa using ha, fun c hc => ?_⟩
          have hca : c ∈ acc := by simpa using hc
          exact ⟨hacc c hca, Or.inl hca⟩
        · obtain ⟨hne, hch⟩ := ih [] (by simp) w hmem2
          exact ⟨hne, fun c hc => ⟨(hch c hc).1, Or.inr (by
            rcases (hch c hc).2 with h | h
            · cases h
            · exact List.mem_cons_of_mem d h)⟩⟩
    · have hd' : isSpaceChar d = false := by simpa using hd
      simp only [splitAux, hd', Bool.false_eq_true, if_false] at hmem
      obtain ⟨hne, hch⟩ := ih (d :: acc)
        (fun c hc => by
          rcases List.mem_cons.mp hc with rfl | hc2
          · exact hd'
          · exact hacc c hc2) w hmem
      refine ⟨hne, fun c hc => ⟨(hch c hc).1, ?_⟩⟩
      rcases (hch c hc).2 with h | h
      · rcases List.mem_cons.mp h with rfl | hc2
        · exact Or.inr (List.mem_cons_self c t)
        · exact Or.inl hc2
      · exact Or.inr (List.mem_cons_of_mem d h)

/-- Specialization: words of a string. -/
theorem wordsOf_words {s : List Char} {w : List Char} (hmem : w ∈ wordsOf s) :
    w ≠ [] ∧ ∀ c ∈ w, isSpaceChar c = false ∧ c ∈ s := by
  obtain ⟨hne, hch⟩ := splitAux_words s [] (by simp) w hmem
  exact ⟨hne, fun c hc => ⟨(hch c hc).1, by
    rcases (hch c hc).2 with h | h
    · cases h
    · exact h⟩⟩

/-- After the run's single space is emitted, the rest of the whitespace
run is skipped. -/
theorem collapseAux_true (rest : List Char) :
    collapseAux true rest = collapseAux false (rest.dropWhile isSpaceChar) := by
  induction rest with
  | nil => rfl
  | cons d t ih =>
    by_cases hd : isSpaceChar d = true
    · rw [List.dropWhile_cons_of_pos hd]
      simp only [collapseAux, hd, eq_self_iff_true, if_true]
      exact ih
    · have hd' : isSpaceChar d = false := by simpa using hd
      rw [List.dropWhile_cons_of_neg hd]
      simp only [collapseAux, hd', Bool.false_eq_true, if_false]

/-- Non-space characters pass through collapsing unchanged (and leave the
run flag cleared). -/
theorem collapseAux_word :
    ∀ (w : List Char), (∀ c ∈ w, isSpaceChar c = false) →
      ∀ r, collapseAux false (w ++ r) = w ++ collapseAux false r := by
  intro w
  induction w with
  | nil => intro _ r; rfl
  | cons a w' ih =>
    intro hw r
    have ha : isSpaceChar a = false := hw a (List.mem_cons_self a w')
    simp only [List.cons_append, collapseAux, ha, Bool.false_eq_true, if_false]
    rw [show w'.append r = w' ++ r from rfl,
      ih (fun c hc => hw c (List.mem_cons_of_mem a hc)) r]

/-- A list without `p`-characters is untouched by the right trim. -/
theorem dropEndWhile_of_all {p : Char → Bool} {v : List Char}
    (hv : ∀ c ∈ v, p c = false) : dropEndWhile p v = v := by
  unfold dropEndWhile
  cases hrev : v.reverse with
  | nil =>
    rw [List.reverse_eq_nil_iff.mp hrev]
    rfl
  | cons x xs =>
    have hx : p x = false := hv x (by
      have hmem : x ∈ v.reverse := by rw [hrev]; exact List.mem_cons_self x xs
      simpa using hmem)
    rw [List.dropWhile_cons_of_neg (by simp [hx]), ← hrev, List.reverse_reverse]

/-- Right trim across an append whose right part does not vanish. -/
theorem dropEndWhile_append {p : Char → Bool} (a b : List Char)
    (hb : dropEndWhile p b ≠ []) :
    dropEndWhile p (a ++ b) = a ++ dropEndWhile p b := by
  unfold dropEndWhile at hb ⊢
  rw [List.reverse_append, List.dropWhile_append]
  have hbe : (b.reverse.dropWhile p).isEmpty = false := by
    cases hh : b.reverse.dropWhile p with
    | nil => exact absurd (by rw [hh]; rfl) hb
    | cons x xs => rfl
  rw [if_neg (by simp [hbe])]
  rw [List.reverse_append, List.reverse_reverse]

/-- Right trim removes one trailing `p`-character. -/
theorem dropEndWhile_append_singleton {p : Char → Bool} {x : Char} (v : List Char)
    (hx : p x = true) : dropEndWhile p (v ++ [x]) = dropEndWhile p v := by
  unfold dropEndWhile
  rw [List.reverse_append, List.reverse_singleton, List.singleton_append,
    List.dropWhile_cons_of_pos hx]

/-- `joinSp` step on a list with at least two words. -/
theorem joinSp_cons_cons (w x : List Char) (ws : List (List Char)) :
    joinSp (w :: x :: ws) = w ++ sp :: joinSp (x :: ws) := rfl

/-- `joinSp` of a list whose first word is nonempty is nonempty. -/
theorem joinSp_ne_nil {w : List Char} (hw : w ≠ []) (ws : List (List Char)) :
    joinSp (w :: ws) ≠ [] := by
  cases ws with
  | nil => simpa [joinSp] using hw
  | cons x ws' =>
    rw [joinSp_cons_cons]
    simp [hw]

/-- Collapsing whitespace runs and then trimming produces exactly the
words rejoined with single spaces — for every string. -/
theorem strip_collapse :
    ∀ (n : Nat) (s : List Char), s.length ≤ n →
      pyStrip (collapseWS s) = joinSp (wordsOf s) := by
  intro n
  induction n with
  | zero =>
    intro s hlen
    have hs0 : s = [] := List.length_eq_zero.mp (Nat.le_zero.mp hlen)
    subst hs0
    rfl
  | succ n ih =>
    intro s hlen
    cases s with
    | nil => rfl
    | cons c rest =>
      have hlenr : rest.length ≤ n := by simp only [List.length_cons] at hlen; omega
      by_cases hc : isSpaceChar c = true
      · have h1 : collapseWS (c :: rest) = sp :: collapseAux true rest := by
          simp only [collapseWS, collapseAux, hc, eq_self_iff_true, if_true]
          rw [if_neg (show ¬(false = true) by decide)]
        rw [h1, collapseAux_true]
        have h2 : pyStrip (sp :: collapseWS (rest.dropWhile isSpaceChar)) =
            pyStrip (collapseWS (rest.dropWhile isSpaceChar)) := by
          simp only [pyStrip,
            List.dropWhile_cons_of_pos (show isSpaceChar sp = true from by decide)]
        rw [show collapseAux false (rest.dropWhile isSpaceChar) =
              collapseWS (rest.dropWhile isSpaceChar) from rfl, h2,
          ih _ (le_trans (List.Sublist.length_le (List.dropWhile_sublist _)) hlenr),
          wordsOf_dropWhile, wordsOf_sp_cons hc]
      · have hc' : isSpaceChar c = false := by simpa using hc
        have htwc : ∀ x ∈ (c :: rest.takeWhile nsp), isSpaceChar x = false := by
          intro x hx
          rcases List.mem_cons.mp hx with rfl | hx2
          · exact hc'
          · have hx3 := List.mem_takeWhile_imp hx2
            simpa [nsp] using hx3
        have hsplit : (c :: rest.takeWhile nsp) ++ rest.dropWhile nsp = c :: rest := by
          rw [List.cons_append, List.takeWhile_append_dropWhile]
        have hdwh : rest.dropWhile nsp = [] ∨
            ∃ d t, rest.dropWhile nsp = d :: t ∧ isSpaceChar d = true := by
          cases hdd : rest.dropWhile nsp with
          | nil => exact Or.inl rfl
          | cons d t =>
            refine Or.inr ⟨d, t, rfl, ?_⟩
            have hh := List.head?_dropWhile_not nsp rest
            rw [hdd] at hh
            simp only [List.head?_cons] at hh
            simpa [nsp] using hh
        have hwords : wordsOf (c :: rest) = (c :: rest.takeWhile nsp) :: wordsOf (rest.dropWhile nsp) := by
          rw [← hsplit]
          exact wordsOf_word_append _ _ (List.cons_ne_nil _ _) htwc hdwh
        have hcol : collapseWS (c :: rest) = (c :: rest.takeWhile nsp) ++ collapseWS (rest.dropWhile nsp) := by
          rw [← hsplit]
          exact collapseAux_word _ htwc _
        rw [hcol, hwords]
        rcases hdwh with hdnil | ⟨d, t, hdd, hd⟩
        · rw [hdnil, show collapseWS ([] : List Char) = [] from rfl, List.append_nil,
            show wordsOf ([] : List Char) = [] from rfl]
          show pyStrip (c :: rest.takeWhile nsp) = joinSp [c :: rest.takeWhile nsp]
          unfold pyStrip
          rw [List.dropWhile_cons_of_neg (by simp [hc']), dropEndWhile_of_all htwc]
          rfl
        · rw [hdd]
          have h3 : collapseWS (d :: t) = sp :: collapseAux true t := by
            simp only [collapseWS, collapseAux, hd, eq_self_iff_true, if_true]
            rw [if_neg (show ¬(false = true) by decide)]
          rw [h3, collapseAux_true]
          have h4 : wordsOf (d :: t) = wordsOf (t.dropWhile isSpaceChar) := by
            rw [wordsOf_sp_cons hd, wordsOf_dropWhile]
          rw [h4]
          have hulen : (t.dropWhile isSpaceChar).length ≤ n := by
            have h5 : (t.dropWhile isSpaceChar).length ≤ t.length :=
              List.Sublist.length_le (List.dropWhile_sublist _)
            have h6 : (rest.dropWhile nsp).length ≤ rest.length :=
              List.Sublist.length_le (List.dropWhile_sublist _)
            rw [hdd] at h6
            simp only [List.length_cons] at h6
            omega
          cases hue : t.dropWhile isSpaceChar with
          | nil =>
            rw [show collapseAux false [] = [] from rfl,
              show wordsOf ([] : List Char) = [] from rfl]
            show pyStrip ((c :: rest.takeWhile nsp) ++ [sp]) = joinSp [c :: rest.takeWhile nsp]
            unfold pyStrip
            rw [List.cons_append,
              List.dropWhile_cons_of_neg (by simp [hc']), ← List.cons_append,
              dropEndWhile_append_singleton _ (by decide), dropEndWhile_of_all htwc]
            rfl
          | cons e t2 =>
            have he : isSpaceChar e = false := by
              have hh := List.head?_dropWhile_not isSpaceChar t
              rw [hue] at hh
              simpa using hh
            have hihu : pyStrip (collapseWS (e :: t2)) = joinSp (wordsOf (e :: t2)) := by
              apply ih
              rw [← hue]
              exact hulen
            have hchead : collapseWS (e :: t2) = e :: collapseAux false t2 := by
              simp only [collapseWS, collapseAux, he, Bool.false_eq_true, if_false]
            have hstr : pyStrip (collapseWS (e :: t2)) =
                dropEndWhile isSpaceChar (collapseWS (e :: t2)) := by
              unfold pyStrip
              rw [hchead, List.dropWhile_cons_of_neg (by simp [he])]
            have hwne : wordsOf (e :: t2) ≠ [] := wordsOf_ne_nil he t2
            have hjne : dropEndWhile isSpaceChar (collapseWS (e :: t2)) ≠ [] := by
              rw [← hstr, hihu]
              cases hwu : wordsOf (e :: t2) with
              | nil => exact absurd hwu hwne
              | cons w0 ws0 =>
                have hw0 : w0 ≠ [] := by
                  have hmem : w0 ∈ wordsOf (e :: t2) := by
                    rw [hwu]; exact List.mem_cons_self w0 ws0
                  exact (wordsOf_words hmem).1
                exact joinSp_ne_nil hw0 ws0
            show pyStrip ((c :: rest.takeWhile nsp) ++ sp :: collapseWS (e :: t2)) =
              joinSp ((c :: rest.takeWhile nsp) :: wordsOf (e :: t2))
            unfold pyStrip
            rw [List.cons_append, List.dropWhile_cons_of_neg (by simp [hc']),
              ← List.cons_append,
              show (c :: rest.takeWhile nsp) ++ sp :: collapseWS (e :: t2) =
                ((c :: rest.takeWhile nsp) ++ [sp]) ++ collapseWS (e :: t2) from by
                  simp [List.append_assoc],
              dropEndWhile_append _ _ hjne, ← hstr, hihu]
            cases hwu : wordsOf (e :: t2) with
            | nil => exact absurd hwu hwne
            | cons w0 ws0 =>
              rw [joinSp_cons_cons]
              simp [List.append_assoc]

/-- The word-level removal only keeps characters of its input. -/
theorem rmWords_subset :
    ∀ (n : Nat) (s : List Char), s.length ≤ n → ∀ c ∈ rmWords s, c ∈ s := by
  intro n
  induction n with
  | zero =>
    intro s hlen c hc
    have hs0 : s = [] := List.length_eq_zero.mp (Nat.le_zero.mp hlen)
    subst hs0
    rw [show rmWords [] = [] from by simp [rmWords]] at hc
    cases hc
  | succ n ih =>
    intro s hlen c hc
    cases s with
    | nil =>
      rw [show rmWords [] = [] from by simp [rmWords]] at hc
      cases hc
    | cons a rest =>
      have hlenr : rest.length ≤ n := by simp only [List.length_cons] at hlen; omega
      by_cases ha : isSpaceChar a = true
      · rw [show rmWords (a :: rest) = a :: rmWords rest from by
            simp only [rmWords]; rw [if_pos ha]] at hc
        rcases List.mem_cons.mp hc with rfl | hc2
        · exact List.mem_cons_self c rest
        · exact List.mem_cons_of_mem a (ih rest hlenr c hc2)
      · have ha' : isSpaceChar a = false := by simpa using ha
        rw [show rmWords (a :: rest) =
            (if (a :: rest.takeWhile nsp) ∈ suffixTokens then []
              else a :: rest.takeWhile nsp) ++ rmWords (rest.dropWhile nsp) from by
            simp only [rmWords]; rw [if_neg (by simp [ha'])]] at hc
        rcases List.mem_append.mp hc with hc1 | hc2
        · by_cases htok : (a :: rest.takeWhile nsp) ∈ suffixTokens
          · rw [if_pos htok] at hc1; cases hc1
          · rw [if_neg htok] at hc1
            rcases List.mem_cons.mp hc1 with rfl | hc3
            · exact List.mem_cons_self c rest
            · exact List.mem_cons_of_mem a (List.takeWhile_subset nsp hc3)
        · have hlend : (rest.dropWhile nsp).length ≤ n :=
            le_trans (List.Sublist.length_le (List.dropWhile_sublist _)) hlenr
          exact List.mem_cons_of_mem a ((List.dropWhile_sublist nsp).subset (ih _ hlend c hc2))

/-- The words surviving the suffix substitution are exactly the non-token
words, in order. -/
theorem wordsOf_rmWords :
    ∀ (n : Nat) (s : List Char), s.length ≤ n →
      wordsOf (rmWords s) = (wordsOf s).filter (fun w => !decide (w ∈ suffixTokens)) := by
  intro n
  induction n with
  | zero =>
    intro s hlen
    have hs0 : s = [] := List.length_eq_zero.mp (Nat.le_zero.mp hlen)
    subst hs0
    rw [show rmWords [] = [] from by simp [rmWords]]
    rfl
  | succ n ih =>
    intro s hlen
    cases s with
    | nil =>
      rw [show rmWords [] = [] from by simp [rmWords]]
      rfl
    | cons a rest =>
      have hlenr : rest.length ≤ n := by simp only [List.length_cons] at hlen; omega
      by_cases ha : isSpaceChar a = true
      · rw [show rmWords (a :: rest) = a :: rmWords rest from by
            simp only [rmWords]; rw [if_pos ha],
          wordsOf_sp_cons ha, ih rest hlenr, wordsOf_sp_cons ha]
      · have ha' : isSpaceChar a = false := by simpa using ha
        have htwc : ∀ x ∈ (a :: rest.takeWhile nsp), isSpaceChar x = false := by
          intro x hx
          rcases List.mem_cons.mp hx with rfl | hx2
          · exact ha'
          · have hx3 := List.mem_takeWhile_imp hx2
            simpa [nsp] using hx3
        have hsplit : (a :: rest.takeWhile nsp) ++ rest.dropWhile nsp = a :: rest := by
          rw [List.cons_append, List.takeWhile_append_dropWhile]
        have hdwh : rest.dropWhile nsp = [] ∨
            ∃ d t, rest.dropWhile nsp = d :: t ∧ isSpaceChar d = true := by
          cases hdd : rest.dropWhile nsp with
          | nil => exact Or.inl rfl
          | cons d t =>
            refine Or.inr ⟨d, t, rfl, ?_⟩
            have hh := List.head?_dropWhile_not nsp rest
            rw [hdd] at hh
            simp only [List.head?_cons] at hh
            simpa [nsp] using hh
        have hrmdw : rmWords (rest.dropWhile nsp) = [] ∨
            ∃ d t2, rmWords (rest.dropWhile nsp) = d :: t2 ∧ isSpaceChar d = true := by
          rcases hdwh with hdnil | ⟨d, t, hdd, hd⟩
          · rw [hdnil]
            exact Or.inl (by simp [rmWords])
          · rw [hdd]
            refine Or.inr ⟨d, rmWords t, ?_, hd⟩
            simp only [rmWords]; rw [if_pos hd]
        have hwords : wordsOf (a :: rest) =
            (a :: rest.takeWhile nsp) :: wordsOf (rest.dropWhile nsp) := by
          rw [← hsplit]
          exact wordsOf_word_append _ _ (List.cons_ne_nil _ _) htwc hdwh
        have hlend : (rest.dropWhile nsp).length ≤ n :=
          le_trans (List.Sublist.length_le (List.dropWhile_sublist _)) hlenr
        by_cases htok : (a :: rest.takeWhile nsp) ∈ suffixTokens
        · rw [show rmWords (a :: rest) = rmWords (rest.dropWhile nsp) from by
              simp only [rmWords]
              rw [if_neg (by simp [ha']), if_pos htok, List.nil_append],
            ih _ hlend, hwords, List.filter_cons,
            if_neg (by simp [htok])]
        · rw [show rmWords (a :: rest) =
              (a :: rest.takeWhile nsp) ++ rmWords (rest.dropWhile nsp) from by
              simp only [rmWords]
              rw [if_neg (by simp [ha']), if_neg htok],
            wordsOf_word_append _ _ (List.cons_ne_nil _ _) htwc hrmdw,
            ih _ hlend, hwords, List.filter_cons, if_pos (by simp [htok])]

/-- Words rejoined with single spaces split back into the same words. -/
theorem wordsOf_joinSp :
    ∀ ws : List (List Char),
      (∀ w ∈ ws, w ≠ [] ∧ ∀ c ∈ w, isSpaceChar c = false) →
      wordsOf (joinSp ws) = ws := by
  intro ws
  induction ws with
  | nil => intro _; rfl
  | cons w ws' ih =>
    intro hws
    have hw := hws w (List.mem_cons_self w ws')
    cases ws' with
    | nil =>
      have h1 := wordsOf_word_append w [] hw.1 hw.2 (Or.inl rfl)
      rw [List.append_nil] at h1
      show wordsOf w = [w]
      rw [h1]
      rfl
    | cons x ws'' =>
      rw [joinSp_cons_cons,
        wordsOf_word_append w (sp :: joinSp (x :: ws'')) hw.1 hw.2
          (Or.inr ⟨sp, joinSp (x :: ws''), rfl, by decide⟩),
        wordsOf_sp_cons (by decide),
        ih (fun v hv => hws v (List.mem_cons_of_mem w hv))]

/-- Characters of a rejoined word list are word characters or the space. -/
theorem mem_joinSp {c : Char} :
    ∀ ws : List (List Char), c ∈ joinSp ws → (∃ w ∈ ws, c ∈ w) ∨ c = sp := by
  intro ws
  induction ws with
  | nil => intro h; cases h
  | cons w ws' ih =>
    intro h
    cases ws' with
    | nil =>
      exact Or.inl ⟨w, List.mem_cons_self w [], by simpa [joinSp] using h⟩
    | cons x ws'' =>
      rw [joinSp_cons_cons] at h
      rcases List.mem_append.mp h with h1 | h2
      · exact Or.inl ⟨w, List.mem_cons_self w (x :: ws''), h1⟩
      · rcases List.mem_cons.mp h2 with rfl | h3
        · exact Or.inr rfl
        · rcases ih h3 with ⟨v, hv, hcv⟩ | heq
          · exact Or.inl ⟨v, List.mem_cons_of_mem w hv, hcv⟩
          · exact Or.inr heq

/-- On a clean string the whole normalization body is the word-level
operation: keep the non-suffix-token words and rejoin them with single
spaces. -/
theorem norm_clean (u : List Char) (hu : ∀ c ∈ u, keepChar c = true) :
    pyStrip (collapseWS (stripOther (removeSub none u))) =
      joinSp ((wordsOf u).filter (fun w => !decide (w ∈ suffixTokens))) := by
  have h1 : removeSub none u = rmWords u :=
    (removeAux_clean u.length u (le_refl _) hu).1 none rfl
  have h2 : stripOther (rmWords u) = rmWords u :=
    List.filter_eq_self.mpr (fun c hc => hu c (rmWords_subset u.length u (le_refl _) c hc))
  rw [h1, h2, strip_collapse (rmWords u).length _ (le_refl _),
    wordsOf_rmWords u.length u (le_refl _)]

/-- **C3 (amended)**: `normalize` is idempotent on every input whose
uppercased form contains only the kept characters `A-Z`, `0-9` and space
— in particular on all inputs made of ASCII letters, digits and spaces.
On such inputs one pass produces the non-suffix-token words rejoined by
single spaces, and a second pass reproduces the same word list (no new
suffix token can appear).  In general idempotence fails: stripping
punctuation after suffix removal can glue letters into a fresh suffix
token, see the counterexample `I.N.C`. -/
theorem claimC3 (s : List Char) (h : ∀ c ∈ upperStr s, keepChar c = true) :
    normalize (normalize s) = normalize s := by
  have hin : normalize s =
      joinSp ((wordsOf (upperStr s)).filter (fun w => !decide (w ∈ suffixTokens))) := by
    unfold normalize
    exact norm_clean (upperStr s) h
  have hwords : ∀ w ∈ (wordsOf (upperStr s)).filter (fun w => !decide (w ∈ suffixTokens)),
      w ≠ [] ∧ ∀ c ∈ w, isSpaceChar c = false ∧ keepChar c = true := by
    intro w hw
    have hw2 := List.mem_filter.mp hw
    obtain ⟨hne, hch⟩ := wordsOf_words hw2.1
    exact ⟨hne, fun c hc => ⟨(hch c hc).1, h c (hch c hc).2⟩⟩
  set ws := (wordsOf (upperStr s)).filter (fun w => !decide (w ∈ suffixTokens)) with hws
  have hyclean : ∀ c ∈ joinSp ws, keepChar c = true := by
    intro c hc
    rcases mem_joinSp ws hc with ⟨w, hw, hcw⟩ | rfl
    · exact ((hwords w hw).2 c hcw).2
    · decide
  have hyup : upperStr (joinSp ws) = joinSp ws := by
    unfold upperStr
    have hcongr : (joinSp ws).map Char.toUpper = (joinSp ws).map id :=
      List.map_congr_left (fun c hc => by
        rcases keep_cases (hyclean c hc) with ⟨-, -, -, hup⟩ | ⟨-, -, -, hup⟩ <;>
          simpa using hup)
    rw [hcongr, List.map_id]
  rw [hin]
  have hout : normalize (joinSp ws) =
      joinSp ((wordsOf (joinSp ws)).filter (fun w => !decide (w ∈ suffixTokens))) := by
    unfold normalize
    rw [hyup]
    exact norm_clean (joinSp ws) hyclean
  rw [hout,
    wordsOf_joinSp ws (fun w hw => ⟨(hwords w hw).1, fun c hc => ((hwords w hw).2 c hc).1⟩),
    show ws.filter (fun w => !decide (w ∈ suffixTokens)) = ws from
      List.filter_eq_self.mpr (fun w hw => (List.mem_filter.mp hw).2)]

/-- Witness for C3 on a concrete clean input with mixed case, digits,
and two suffix tokens. -/
theorem claimC3_witness :
    (∀ c ∈ upperStr (("Acme Co Ltd 99").toList), keepChar c = true) ∧
    normalize (normalize (("Acme Co Ltd 99").toList)) = normalize (("Acme Co Ltd 99").toList) :=
  ⟨by decide, claimC3 (("Acme Co Ltd 99").toList) (by decide)⟩

end KellyApp
